import Mathlib

/-!
Verification of the `real_interval` crate (`src/lib.rs`): an `f32`-backed
closed-interval type `RealInterval` with arithmetic and set operations.

Embedding conventions:
* Finite floating-point values are modelled by exact rationals (`ℚ`); the crate
  performs no outward rounding and its described semantics are at the level of
  real-number values of the bounds.
* The bit-level operations (`verify_ldexp`, `ldexp`, `mul_pow2`) are modelled on
  raw 32-bit patterns (`ℕ` below `2 ^ 32`) in `RealIntervalBits`, with the IEEE-754
  binary32 valuation `fval` giving the represented rational value.  Patterns with
  exponent field 255 have no rational value: `fval` maps them to sentinel rationals
  beyond the finite range by continuing the normal-form formula, which is
  order-faithful for the infinities (mantissa zero); NaN patterns (mantissa
  nonzero) are incomparable in IEEE order, so theorems about the represented
  order use the bit-pattern comparison `fleBits`, which detects them via
  `isNaNBits` and never consults `fval` on them.  Theorems that depend on exact
  represented values carry hypotheses restricting to the finite domain.
* The NaN behaviour of comparisons is modelled separately by `FloatVal`, a rational
  value or NaN, with the IEEE partial-order comparison `fle`.
* Panics (`assert!`) are modelled by `Option` results; `powf`'s scalar power
  function is a parameter constrained by the monotonicity facts true of `f32::powf`
  on the non-negative base domain the code asserts.
-/

/-- Closed interval on the (finite) reals, mirroring `struct RealInterval` with
its `min` and `max` fields. -/
structure RealInterval where
  /-- The starting value of this range. -/
  min : ℚ
  /-- The ending value of this range. -/
  max : ℚ
deriving DecidableEq

namespace RealInterval

/-- The invariant `min <= max` that every validly constructed interval satisfies. -/
def valid (i : RealInterval) : Prop := i.min ≤ i.max

instance (i : RealInterval) : Decidable i.valid :=
  inferInstanceAs (Decidable (i.min ≤ i.max))

/-- Constructor `RealInterval::min_max`; the `assert!(min <= max)` panic is
modelled as `none`. -/
def min_max (mn mx : ℚ) : Option RealInterval :=
  if mn ≤ mx then some ⟨mn, mx⟩ else none

/-- Method `RealInterval::contains`: `self.min <= value && value <= self.max`. -/
def contains (i : RealInterval) (value : ℚ) : Prop :=
  i.min ≤ value ∧ value ≤ i.max

instance (i : RealInterval) (value : ℚ) : Decidable (i.contains value) :=
  inferInstanceAs (Decidable (_ ∧ _))

/-- Method `RealInterval::abs`. -/
def abs (i : RealInterval) : RealInterval :=
  if i.min < 0 ∧ 0 ≤ i.max then
    ⟨0, Max.max i.max |i.min|⟩
  else
    ⟨Min.min |i.min| |i.max|, Max.max |i.min| |i.max|⟩

/-- Method `RealInterval::min` (bound-wise minimum of two intervals); named
`minI` because the Lean field projection already uses the name `min`. -/
def minI (i rhs : RealInterval) : RealInterval :=
  ⟨Min.min i.min rhs.min, Min.min i.max rhs.max⟩

/-- Method `RealInterval::max` (bound-wise maximum of two intervals). -/
def maxI (i rhs : RealInterval) : RealInterval :=
  ⟨Max.max i.min rhs.min, Max.max i.max rhs.max⟩

/-- Method `RealInterval::minf`. -/
def minf (i : RealInterval) (value : ℚ) : RealInterval :=
  ⟨Min.min i.min value, Min.min i.max value⟩

/-- Method `RealInterval::maxf`. -/
def maxf (i : RealInterval) (value : ℚ) : RealInterval :=
  ⟨Max.max i.min value, Max.max i.max value⟩

end RealInterval

/-- Rounding to the nearest whole number with ties away from zero, the semantics
of `f32::round`, expressed on rationals. -/
def roundQ (q : ℚ) : ℚ :=
  if 0 ≤ q then (⌊q + 1 / 2⌋ : ℤ) else (⌈q - 1 / 2⌉ : ℤ)

namespace RealInterval

/-- Method `RealInterval::round`: rounds each bound with `f32::round`. -/
def round (i : RealInterval) : RealInterval :=
  ⟨roundQ i.min, roundQ i.max⟩

/-- Method `RealInterval::powf`.  The scalar power `f32::powf` is not a rational
function, so it enters as the parameter `p`; the code's `assert!(self.min >= 0.0)`
precondition is carried as a hypothesis by the theorems about `powfM`.  The
branch structure mirrors the source: for `value > 0.0` the bounds are kept in
order, otherwise they are swapped. -/
def powfM (p : ℚ → ℚ → ℚ) (i : RealInterval) (value : ℚ) : RealInterval :=
  if 0 < value then ⟨p i.min value, p i.max value⟩ else ⟨p i.max value, p i.min value⟩

/-- Method `RealInterval::powi`, with `f32::powi` modelled as exact integer
power (`zpow`) on rationals. -/
def powi (i : RealInterval) (value : ℤ) : RealInterval :=
  if value % 2 = 0 then
    if i.min < 0 ∧ 0 ≤ i.max then
      ⟨0, Max.max (i.min ^ value) (i.max ^ value)⟩
    else if 0 ≤ i.min then
      ⟨i.min ^ value, i.max ^ value⟩
    else
      ⟨i.max ^ value, i.min ^ value⟩
  else
    ⟨i.min ^ value, i.max ^ value⟩

/-- Operator `impl Add for RealInterval`. -/
def add (i rhs : RealInterval) : RealInterval :=
  ⟨i.min + rhs.min, i.max + rhs.max⟩

/-- Operator `impl Sub for RealInterval`. -/
def sub (i rhs : RealInterval) : RealInterval :=
  ⟨i.min - rhs.max, i.max - rhs.min⟩

/-- Operator `impl Neg for RealInterval`. -/
def neg (i : RealInterval) : RealInterval :=
  ⟨-i.max, -i.min⟩

/-- Operator `impl Add<f32> for RealInterval`. -/
def addF (i : RealInterval) (rhs : ℚ) : RealInterval :=
  ⟨i.min + rhs, i.max + rhs⟩

/-- Operator `impl Sub<f32> for RealInterval`. -/
def subF (i : RealInterval) (rhs : ℚ) : RealInterval :=
  ⟨i.min - rhs, i.max - rhs⟩

/-- Operator `impl Mul<f32> for RealInterval` (scalar on the right): a
non-negative scalar keeps the bound order, a negative scalar swaps it. -/
def mulF (i : RealInterval) (rhs : ℚ) : RealInterval :=
  if 0 ≤ rhs then ⟨rhs * i.min, rhs * i.max⟩ else ⟨rhs * i.max, rhs * i.min⟩

/-- Operator `impl Mul<RealInterval> for f32` (scalar on the left). -/
def mulScalarL (c : ℚ) (rhs : RealInterval) : RealInterval :=
  if 0 ≤ c then ⟨c * rhs.min, c * rhs.max⟩ else ⟨c * rhs.max, c * rhs.min⟩

/-- Operator `impl BitOr for RealInterval` (union / hull). -/
def union (i rhs : RealInterval) : RealInterval :=
  ⟨Min.min i.min rhs.min, Max.max i.max rhs.max⟩

/-- Operator `impl Mul for RealInterval`: `(self.min * rhs) | (self.max * rhs)`. -/
def mul (i rhs : RealInterval) : RealInterval :=
  union (mulScalarL i.min rhs) (mulScalarL i.max rhs)

/-- Operator `impl BitAnd for RealInterval` (intersection), `none` when the
bounds cross. -/
def inter (i rhs : RealInterval) : Option RealInterval :=
  if Max.max i.min rhs.min ≤ Min.min i.max rhs.max then
    some ⟨Max.max i.min rhs.min, Min.min i.max rhs.max⟩
  else
    none

end RealInterval

/-- Interval whose bounds are raw 32-bit IEEE-754 binary32 bit patterns, the
representation on which `verify_ldexp`, `ldexp` and `mul_pow2` operate. -/
structure RealIntervalBits where
  /-- Bit pattern of the starting value. -/
  min : ℕ
  /-- Bit pattern of the ending value. -/
  max : ℕ
deriving DecidableEq

namespace RealIntervalBits

/-- The biased exponent field of a bit pattern: `((bits >> 23) & 0xff)` from
`RealInterval::verify_ldexp`. -/
def expField (a : ℕ) : ℕ := (a >>> 23) &&& 255

/-- Function `RealInterval::verify_ldexp` on the bit pattern of a bound. -/
def verify_ldexp (a : ℕ) (exp : ℤ) : Bool :=
  if 0 < exp then
    decide (exp ≤ 255) && decide ((expField a : ℤ) + exp ≤ 255)
  else
    decide (0 ≤ (expField a : ℤ) + exp)

/-- Function `RealInterval::ldexp` on bit patterns:
`f32::from_bits(a.to_bits() + ((exp << 23) as u32))` with wrapping 32-bit
arithmetic. -/
def ldexp (a : ℕ) (exp : ℤ) : ℕ :=
  (((a : ℤ) + exp * 2 ^ 23) % 2 ^ 32).toNat

/-- Method `RealInterval::mul_pow2_unchecked` at the bit level. -/
def mul_pow2_unchecked (i : RealIntervalBits) (value : ℤ) : RealIntervalBits :=
  ⟨ldexp i.min value, ldexp i.max value⟩

/-- Method `RealInterval::mul_pow2` at the bit level. -/
def mul_pow2 (i : RealIntervalBits) (value : ℤ) : Option RealIntervalBits :=
  if verify_ldexp i.min value && verify_ldexp i.max value then
    some (mul_pow2_unchecked i value)
  else
    none

/-- Rational value represented by a binary32 bit pattern: sign bit 31, biased
exponent bits 23-30, mantissa bits 0-22; subnormals at exponent field 0.
Patterns with exponent field 255 are mapped by continuing the normal-value
formula to sentinel rationals that lie strictly beyond every finite float, so
comparisons through `fval` agree with IEEE order for the infinities; NaN
patterns (field 255, nonzero mantissa) must instead be excluded through
`isNaNBits` and the IEEE comparison `fleBits` below. -/
def fval (a : ℕ) : ℚ :=
  (if a / 2 ^ 31 = 0 then 1 else -1) *
    (if a / 2 ^ 23 % 256 = 0 then
      ((a % 2 ^ 23 : ℕ) : ℚ) * (2 : ℚ) ^ (-149 : ℤ)
    else
      ((2 ^ 23 + a % 2 ^ 23 : ℕ) : ℚ) * (2 : ℚ) ^ ((a / 2 ^ 23 % 256 : ℕ) - 150 : ℤ))

/-- Interval of rational values represented by a bit-pattern interval. -/
def toVal (i : RealIntervalBits) : RealInterval :=
  ⟨fval i.min, fval i.max⟩

/-- Check described by the specification for `mul_pow2`, written from its words:
with `exponent_field` the bits 23-30 of the bound's 32-bit representation, a
positive `exp` requires `exp <= 255` and `exponent_field + exp <= 255`, and a
non-positive `exp` requires `exponent_field + exp >= 0`. -/
def ldexpCheck (a : ℕ) (exp : ℤ) : Prop :=
  (0 < exp → exp ≤ 255 ∧ (a / 2 ^ 23 % 256 : ℕ) + exp ≤ 255) ∧
    (exp ≤ 0 → 0 ≤ (a / 2 ^ 23 % 256 : ℕ) + exp)

instance (a : ℕ) (exp : ℤ) : Decidable (ldexpCheck a exp) :=
  inferInstanceAs (Decidable (_ ∧ _))

/-- Bounds whose bit pattern is a normal float that stays normal after the
exponent shift by `exp`: the domain on which the bit-level scaling exactly
multiplies the represented value by `2 ^ exp`. -/
def normalBound (a : ℕ) (exp : ℤ) : Prop :=
  a < 2 ^ 32 ∧ 1 ≤ a / 2 ^ 23 % 256 ∧ a / 2 ^ 23 % 256 ≤ 254 ∧
    1 ≤ (a / 2 ^ 23 % 256 : ℕ) + exp ∧ (a / 2 ^ 23 % 256 : ℕ) + exp ≤ 254

instance (a : ℕ) (exp : ℤ) : Decidable (normalBound a exp) :=
  inferInstanceAs (Decidable (_ ∧ _))

/-- NaN bit patterns: exponent field 255 with a nonzero mantissa.  IEEE
comparisons involving them are false. -/
def isNaNBits (a : ℕ) : Prop := a / 2 ^ 23 % 256 = 255 ∧ ¬a % 2 ^ 23 = 0

instance (a : ℕ) : Decidable (isNaNBits a) :=
  inferInstanceAs (Decidable (_ ∧ _))

/-- IEEE-754 `<=` on binary32 bit patterns: false when either operand is a NaN
pattern, otherwise the order of the represented values (on non-NaN patterns,
the infinities included, `fval` is order-faithful). -/
def fleBits (a b : ℕ) : Bool :=
  if isNaNBits a ∨ isNaNBits b then false else decide (fval a ≤ fval b)

end RealIntervalBits

/-- Value of an `f32` as seen by comparison operators: either NaN or an ordered
finite value (modelled by a rational). -/
inductive FloatVal where
  /-- An IEEE NaN, incomparable with everything. -/
  | nan : FloatVal
  /-- An ordered (non-NaN) value. -/
  | num (q : ℚ) : FloatVal
deriving DecidableEq

/-- IEEE-754 `<=` on `FloatVal`: any comparison involving NaN is false. -/
def fle : FloatVal → FloatVal → Bool
  | FloatVal.num a, FloatVal.num b => decide (a ≤ b)
  | _, _ => false

/-- Interval whose bounds may be NaN, for the `contains` claim about NaN. -/
structure FloatInterval where
  /-- The starting value of this range. -/
  min : FloatVal
  /-- The ending value of this range. -/
  max : FloatVal
deriving DecidableEq

/-- Method `RealInterval::contains` at the IEEE comparison level:
`self.min <= value && value <= self.max`. -/
def containsF (i : FloatInterval) (value : FloatVal) : Bool :=
  fle i.min value && fle value i.max

/-- Interval multiplication as the specification's words describe it: the union
of the two candidate scalar multiplications of the right-hand interval by the
left-hand interval's bounds, each following the sign-based bound-ordering rule
(non-negative scalar keeps the bound order, negative scalar swaps it). -/
def RealInterval.mulSpec (a b : RealInterval) : RealInterval :=
  RealInterval.union
    (if 0 ≤ a.min then ⟨a.min * b.min, a.min * b.max⟩ else ⟨a.min * b.max, a.min * b.min⟩)
    (if 0 ≤ a.max then ⟨a.max * b.min, a.max * b.max⟩ else ⟨a.max * b.max, a.max * b.min⟩)

/-- Value of a non-negative binary32 pattern with exponent field `e` and
mantissa `m`, a proof-layer view of `fval`. -/
def RealIntervalBits.fpos (e m : ℕ) : ℚ :=
  if e = 0 then (m : ℚ) * (2 : ℚ) ^ (-149 : ℤ)
  else ((2 ^ 23 + m : ℕ) : ℚ) * (2 : ℚ) ^ ((e : ℤ) - 150)

namespace RealInterval

lemma union_valid {a b : RealInterval} (ha : a.valid) :
    (a.union b).valid := by
  unfold valid union at *
  dsimp only
  exact le_trans (min_le_left _ _) (le_trans ha (le_max_left _ _))

lemma mulScalarL_valid (c : ℚ) {b : RealInterval} (hb : b.valid) :
    (mulScalarL c b).valid := by
  unfold valid mulScalarL at *
  split_ifs with h
  · exact mul_le_mul_of_nonneg_left hb h
  · exact mul_le_mul_of_nonpos_left hb (le_of_not_le h)

lemma mul_valid {a b : RealInterval} (hb : b.valid) : (a.mul b).valid :=
  union_valid (mulScalarL_valid a.min hb)

lemma roundQ_mono {q r : ℚ} (h : q ≤ r) : roundQ q ≤ roundQ r := by
  unfold roundQ
  split_ifs with h1 h2 h2
  · exact_mod_cast Int.floor_le_floor (by linarith)
  · exact absurd (le_trans h1 h) h2
  · have hc : (⌈q - 1 / 2⌉ : ℤ) ≤ 0 := Int.ceil_le.mpr (by push_neg at h1; push_cast; linarith)
    have hf : (0 : ℤ) ≤ ⌊r + 1 / 2⌋ := Int.le_floor.mpr (by push_cast; linarith)
    exact_mod_cast le_trans hc hf
  · exact_mod_cast Int.ceil_le_ceil (by linarith)

lemma abs_valid (a : RealInterval) : a.abs.valid := by
  unfold valid abs at *
  split_ifs with h
  · exact le_trans h.2 (le_max_left _ _)
  · exact min_le_max

lemma mulScalarL_sound (c : ℚ) {b : RealInterval} {x : ℚ} (hx : b.contains x) :
    (mulScalarL c b).contains (c * x) := by
  unfold contains mulScalarL at *
  split_ifs with h
  · exact ⟨mul_le_mul_of_nonneg_left hx.1 h, mul_le_mul_of_nonneg_left hx.2 h⟩
  · exact ⟨mul_le_mul_of_nonpos_left hx.2 (le_of_not_le h),
      mul_le_mul_of_nonpos_left hx.1 (le_of_not_le h)⟩

lemma mul_sound {A B : RealInterval} {a b : ℚ} (hA : A.contains a) (hB : B.contains b) :
    (A.mul B).contains (a * b) := by
  have s1 := mulScalarL_sound A.min hB
  have s2 := mulScalarL_sound A.max hB
  unfold contains mul union at *
  dsimp only
  rcases le_total 0 b with hb | hb
  · have h1 : A.min * b ≤ a * b := mul_le_mul_of_nonneg_right hA.1 hb
    have h2 : a * b ≤ A.max * b := mul_le_mul_of_nonneg_right hA.2 hb
    exact ⟨le_trans (min_le_left _ _) (le_trans s1.1 h1),
      le_trans h2 (le_trans s2.2 (le_max_right _ _))⟩
  · have h1 : A.max * b ≤ a * b := mul_le_mul_of_nonpos_right hA.2 hb
    have h2 : a * b ≤ A.min * b := mul_le_mul_of_nonpos_right hA.1 hb
    exact ⟨le_trans (min_le_right _ _) (le_trans s2.1 h1),
      le_trans h2 (le_trans s1.2 (le_max_left _ _))⟩

lemma abs_sound {A : RealInterval} {a : ℚ} (ha : A.contains a) :
    A.abs.contains |a| := by
  unfold contains abs at *
  split_ifs with h
  · refine ⟨abs_nonneg a, ?_⟩
    rcases le_total 0 a with h0 | h0
    · rw [abs_of_nonneg h0]
      exact le_trans ha.2 (le_max_left _ _)
    · rw [abs_of_nonpos h0]
      refine le_trans ?_ (le_max_right _ _)
      rw [abs_of_neg h.1]
      linarith [ha.1]
  · by_cases hm : 0 ≤ A.min
    · have h0 : 0 ≤ a := le_trans hm ha.1
      have hx : 0 ≤ A.max := le_trans h0 ha.2
      rw [abs_of_nonneg h0, abs_of_nonneg hm, abs_of_nonneg hx]
      exact ⟨le_trans (min_le_left _ _) ha.1, le_trans ha.2 (le_max_right _ _)⟩
    · push_neg at hm
      have hx : A.max < 0 := by
        by_contra hx
        exact h ⟨hm, le_of_not_lt hx⟩
      have h0 : a < 0 := lt_of_le_of_lt ha.2 hx
      rw [abs_of_neg h0, abs_of_neg hm, abs_of_neg hx]
      constructor
      · refine le_trans (min_le_right _ _) ?_
        linarith [ha.2]
      · refine le_trans ?_ (le_max_left _ _)
        linarith [ha.1]

end RealInterval

namespace RealInterval

lemma powi_valid {A : RealInterval} (hA : A.valid) {e : ℤ} (he : 0 ≤ e) :
    (A.powi e).valid := by
  have hAle : A.min ≤ A.max := hA
  obtain ⟨n, rfl⟩ := Int.eq_ofNat_of_zero_le he
  unfold valid powi
  simp only [zpow_natCast]
  split_ifs with hpar hstrad hpos
  · have hn : Even n := Nat.even_iff.mpr (by omega)
    dsimp only
    exact le_trans (Even.pow_nonneg hn A.min) (le_max_left _ _)
  · exact pow_le_pow_left₀ hpos hA n
  · have hn : Even n := Nat.even_iff.mpr (by omega)
    push_neg at hpos
    have hmax : A.max < 0 := by
      by_contra hx
      exact hstrad ⟨hpos, le_of_not_lt hx⟩
    dsimp only
    rw [← Even.pow_abs hn A.max, ← Even.pow_abs hn A.min]
    exact pow_le_pow_left₀ (abs_nonneg _)
      (by rw [abs_of_neg hmax, abs_of_neg (lt_of_le_of_lt hAle hmax)]; linarith) n
  · have hn : Odd n := Nat.odd_iff.mpr (by omega)
    exact (Odd.strictMono_pow hn).monotone hA

lemma powi_sound {A : RealInterval} {a : ℚ} (ha : A.contains a)
    {e : ℤ} (he : 0 ≤ e) : (A.powi e).contains (a ^ e) := by
  obtain ⟨n, rfl⟩ := Int.eq_ofNat_of_zero_le he
  unfold contains powi at *
  simp only [zpow_natCast]
  split_ifs with hpar hstrad hpos
  · have hn : Even n := Nat.even_iff.mpr (by omega)
    dsimp only
    refine ⟨Even.pow_nonneg hn a, ?_⟩
    have habs : |a| ≤ Max.max (-A.min) A.max := by
      have h1 : -Max.max (-A.min) A.max ≤ A.min := by
        have := le_max_left (-A.min) A.max
        linarith
      exact abs_le.mpr ⟨le_trans h1 ha.1, le_trans ha.2 (le_max_right _ _)⟩
    calc a ^ n = |a| ^ n := (Even.pow_abs hn a).symm
      _ ≤ Max.max (-A.min) A.max ^ n := pow_le_pow_left₀ (abs_nonneg a) habs n
      _ ≤ Max.max (A.min ^ n) (A.max ^ n) := by
          rcases le_total (-A.min) A.max with hc | hc
          · rw [max_eq_right hc]
            exact le_max_right _ _
          · rw [max_eq_left hc, Even.neg_pow hn]
            exact le_max_left _ _
  · exact ⟨pow_le_pow_left₀ hpos ha.1 n, pow_le_pow_left₀ (le_trans hpos ha.1) ha.2 n⟩
  · have hn : Even n := Nat.even_iff.mpr (by omega)
    push_neg at hpos
    have hmax : A.max < 0 := by
      by_contra hx
      exact hstrad ⟨hpos, le_of_not_lt hx⟩
    have ha0 : a < 0 := lt_of_le_of_lt ha.2 hmax
    dsimp only
    constructor
    · rw [← Even.pow_abs hn A.max, ← Even.pow_abs hn a]
      exact pow_le_pow_left₀ (abs_nonneg _)
        (by rw [abs_of_neg hmax, abs_of_neg ha0]; linarith [ha.2]) n
    · rw [← Even.pow_abs hn A.min, ← Even.pow_abs hn a]
      exact pow_le_pow_left₀ (abs_nonneg _)
        (by rw [abs_of_neg ha0, abs_of_neg hpos]; linarith [ha.1]) n
  · have hn : Odd n := Nat.odd_iff.mpr (by omega)
    exact ⟨(Odd.strictMono_pow hn).monotone ha.1, (Odd.strictMono_pow hn).monotone ha.2⟩

lemma powfM_valid {p : ℚ → ℚ → ℚ} {v : ℚ} {A : RealInterval} (hA : A.valid)
    (hmin : 0 ≤ A.min)
    (hpm : 0 < v → ∀ x y : ℚ, 0 ≤ x → x ≤ y → p x v ≤ p y v)
    (hpa : v ≤ 0 → ∀ x y : ℚ, 0 ≤ x → x ≤ y → p y v ≤ p x v) :
    (A.powfM p v).valid := by
  unfold valid powfM
  split_ifs with h
  · exact hpm h A.min A.max hmin hA
  · exact hpa (le_of_not_lt h) A.min A.max hmin hA

end RealInterval

namespace RealIntervalBits

lemma expField_eq (a : ℕ) : expField a = a / 2 ^ 23 % 256 := by
  unfold expField
  rw [Nat.shiftRight_eq_div_pow]
  have h := Nat.and_pow_two_sub_one_eq_mod (a / 2 ^ 23) 8
  norm_num at h
  exact h

lemma verify_bounds {a : ℕ} {exp : ℤ} (h : verify_ldexp a exp = true) :
    0 ≤ ((a / 2 ^ 23 % 256 : ℕ) : ℤ) + exp ∧ ((a / 2 ^ 23 % 256 : ℕ) : ℤ) + exp ≤ 255 := by
  have hlt : a / 2 ^ 23 % 256 < 256 := Nat.mod_lt _ (by norm_num)
  unfold verify_ldexp at h
  rw [expField_eq] at h
  split_ifs at h with hpos
  · simp only [Bool.and_eq_true, decide_eq_true_eq] at h
    omega
  · simp only [decide_eq_true_eq] at h
    omega

lemma verify_iff (a : ℕ) (exp : ℤ) : verify_ldexp a exp = true ↔ ldexpCheck a exp := by
  by_cases hpos : 0 < exp
  · simp [verify_ldexp, ldexpCheck, expField_eq, hpos, not_le.mpr hpos]
  · simp [verify_ldexp, ldexpCheck, expField_eq, hpos, le_of_not_lt hpos]

lemma ldexp_eq {a : ℕ} {exp : ℤ} (ha : a < 2 ^ 32)
    (h1 : 0 ≤ ((a / 2 ^ 23 % 256 : ℕ) : ℤ) + exp)
    (h2 : ((a / 2 ^ 23 % 256 : ℕ) : ℤ) + exp ≤ 255) :
    ldexp a exp =
      a / 2 ^ 31 * 2 ^ 31 + (((a / 2 ^ 23 % 256 : ℕ) : ℤ) + exp).toNat * 2 ^ 23 + a % 2 ^ 23 := by
  unfold ldexp
  omega

lemma fval_low {x : ℕ} (hx : x < 2 ^ 31) : fval x = fpos (x / 2 ^ 23) (x % 2 ^ 23) := by
  have h0 : x / 2 ^ 31 = 0 := Nat.div_eq_of_lt hx
  have h1 : x / 2 ^ 23 % 256 = x / 2 ^ 23 := Nat.mod_eq_of_lt (by omega)
  unfold fval fpos
  rw [h0, h1]
  simp

lemma fval_high {x : ℕ} (hx : x < 2 ^ 31) : fval (2 ^ 31 + x) = -fval x := by
  have h0 : (2 ^ 31 + x) / 2 ^ 31 = 1 := by omega
  have h1 : (2 ^ 31 + x) / 2 ^ 23 % 256 = x / 2 ^ 23 := by omega
  have h2 : (2 ^ 31 + x) % 2 ^ 23 = x % 2 ^ 23 := by omega
  rw [fval_low hx]
  unfold fval fpos
  rw [h0, h1, h2, if_neg (by norm_num : ¬(1 : ℕ) = 0)]
  split_ifs <;> ring

lemma fpos_nonneg (e m : ℕ) : 0 ≤ fpos e m := by
  unfold fpos
  split_ifs
  · positivity
  · positivity

lemma fpos_lt_of_exp_lt {e1 m1 e2 m2 : ℕ} (hm1 : m1 < 2 ^ 23) (h : e1 < e2) :
    fpos e1 m1 < fpos e2 m2 := by
  have he2 : e2 ≠ 0 := by omega
  unfold fpos
  rw [if_neg he2]
  have key : (2 : ℚ) ^ 23 * (2 : ℚ) ^ ((e2 : ℤ) - 150) ≤
      ((2 ^ 23 + m2 : ℕ) : ℚ) * (2 : ℚ) ^ ((e2 : ℤ) - 150) := by
    apply mul_le_mul_of_nonneg_right _ (by positivity)
    push_cast
    linarith [Nat.cast_nonneg (α := ℚ) m2]
  split_ifs with he1
  · calc (m1 : ℚ) * (2 : ℚ) ^ (-149 : ℤ)
        < (2 : ℚ) ^ 23 * (2 : ℚ) ^ (-149 : ℤ) :=
          mul_lt_mul_of_pos_right (by exact_mod_cast hm1) (by positivity)
      _ ≤ (2 : ℚ) ^ 23 * (2 : ℚ) ^ ((e2 : ℤ) - 150) := by
          apply mul_le_mul_of_nonneg_left _ (by positivity)
          exact zpow_le_zpow_right₀ one_le_two (by omega)
      _ ≤ _ := key
  · refine lt_of_lt_of_le ?_ key
    have hcast : ((2 ^ 23 + m1 : ℕ) : ℚ) < (2 : ℚ) ^ 24 := by
      push_cast
      have : (m1 : ℚ) < 2 ^ 23 := by exact_mod_cast hm1
      norm_num
      linarith
    calc ((2 ^ 23 + m1 : ℕ) : ℚ) * (2 : ℚ) ^ ((e1 : ℤ) - 150)
        < (2 : ℚ) ^ 24 * (2 : ℚ) ^ ((e1 : ℤ) - 150) :=
          mul_lt_mul_of_pos_right hcast (by positivity)
      _ = (2 : ℚ) ^ 23 * (2 : ℚ) ^ ((e1 : ℤ) - 149) := by
          rw [show ((e1 : ℤ) - 149) = ((e1 : ℤ) - 150) + 1 from by ring,
            zpow_add_one₀ (two_ne_zero)]
          ring
      _ ≤ (2 : ℚ) ^ 23 * (2 : ℚ) ^ ((e2 : ℤ) - 150) := by
          apply mul_le_mul_of_nonneg_left _ (by positivity)
          exact zpow_le_zpow_right₀ one_le_two (by omega)

lemma fpos_lt_of_m_lt {e m1 m2 : ℕ} (h : m1 < m2) : fpos e m1 < fpos e m2 := by
  unfold fpos
  split_ifs with he
  · exact mul_lt_mul_of_pos_right (by exact_mod_cast h) (by positivity)
  · refine mul_lt_mul_of_pos_right ?_ (by positivity)
    exact_mod_cast (by omega : 2 ^ 23 + m1 < 2 ^ 23 + m2)

lemma fval_low_lt {x y : ℕ} (hy : y < 2 ^ 31) (hxy : x < y) : fval x < fval y := by
  have hx : x < 2 ^ 31 := lt_trans hxy hy
  rw [fval_low hx, fval_low hy]
  rcases lt_trichotomy (x / 2 ^ 23) (y / 2 ^ 23) with h | h | h
  · exact fpos_lt_of_exp_lt (Nat.mod_lt _ (by norm_num)) h
  · rw [h]
    exact fpos_lt_of_m_lt (by omega)
  · exact absurd h (by omega)

lemma fval_low_mono {x y : ℕ} (hy : y < 2 ^ 31) (hxy : x ≤ y) : fval x ≤ fval y := by
  rcases eq_or_lt_of_le hxy with rfl | h
  · exact le_refl _
  · exact le_of_lt (fval_low_lt hy h)

lemma fval_low_le_inv {x y : ℕ} (hx : x < 2 ^ 31) (hxy : fval x ≤ fval y) : x ≤ y := by
  by_contra hc
  exact absurd hxy (not_le.mpr (fval_low_lt hx (lt_of_not_le hc)))

lemma fval_low_nonneg {x : ℕ} (hx : x < 2 ^ 31) : 0 ≤ fval x := by
  rw [fval_low hx]
  exact fpos_nonneg _ _

lemma fval_eq_zero {x : ℕ} (hx : x < 2 ^ 31) (h : fval x = 0) : x = 0 := by
  rw [fval_low hx] at h
  unfold fpos at h
  split_ifs at h with he
  · have hp : (0 : ℚ) < (2 : ℚ) ^ (-149 : ℤ) := by positivity
    have hm : x % 2 ^ 23 = 0 := by
      rcases mul_eq_zero.mp h with h' | h'
      · exact_mod_cast h'
      · exact absurd h' (ne_of_gt hp)
    omega
  · exfalso
    have h1 : (0 : ℚ) < ((2 ^ 23 + x % 2 ^ 23 : ℕ) : ℚ) := by
      exact_mod_cast (by positivity : 0 < 2 ^ 23 + x % 2 ^ 23)
    have h2 : (0 : ℚ) < (2 : ℚ) ^ ((x / 2 ^ 23 : ℕ) - 150 : ℤ) := by positivity
    exact absurd h (ne_of_gt (mul_pos h1 h2))

end RealIntervalBits

namespace RealIntervalBits

lemma fleBits_eq_true (a b : ℕ) :
    fleBits a b = true ↔ ¬isNaNBits a ∧ ¬isNaNBits b ∧ fval a ≤ fval b := by
  unfold fleBits
  split_ifs with h
  · simp only [Bool.false_eq_true, false_iff]
    rintro ⟨h1, h2, -⟩
    rcases h with h | h
    · exact h1 h
    · exact h2 h
  · push_neg at h
    simp [h.1, h.2]

lemma fval_ldexp {a : ℕ} {exp : ℤ} (ha : a < 2 ^ 32)
    (h1 : 1 ≤ a / 2 ^ 23 % 256)
    (h2 : 1 ≤ ((a / 2 ^ 23 % 256 : ℕ) : ℤ) + exp)
    (h3 : ((a / 2 ^ 23 % 256 : ℕ) : ℤ) + exp ≤ 255) :
    fval (ldexp a exp) = (2 : ℚ) ^ exp * fval a := by
  rw [ldexp_eq ha (by omega) h3]
  obtain ⟨E, hE⟩ : ∃ E : ℕ, (E : ℤ) = ((a / 2 ^ 23 % 256 : ℕ) : ℤ) + exp :=
    ⟨_, Int.toNat_of_nonneg (by omega)⟩
  rw [show (((a / 2 ^ 23 % 256 : ℕ) : ℤ) + exp).toNat = E from by omega]
  have hE1 : 1 ≤ E := by omega
  have hE255 : E ≤ 255 := by omega
  have hm : a % 2 ^ 23 < 2 ^ 23 := by omega
  have hs : a / 2 ^ 31 ≤ 1 := by omega
  have p1 : (a / 2 ^ 31 * 2 ^ 31 + E * 2 ^ 23 + a % 2 ^ 23) / 2 ^ 31 = a / 2 ^ 31 := by omega
  have p2 : (a / 2 ^ 31 * 2 ^ 31 + E * 2 ^ 23 + a % 2 ^ 23) / 2 ^ 23 % 256 = E := by omega
  have p3 : (a / 2 ^ 31 * 2 ^ 31 + E * 2 ^ 23 + a % 2 ^ 23) % 2 ^ 23 = a % 2 ^ 23 := by omega
  unfold fval
  rw [p1, p2, p3, if_neg (by omega : ¬E = 0), if_neg (by omega : ¬a / 2 ^ 23 % 256 = 0)]
  have hzp : (2 : ℚ) ^ ((E : ℤ) - 150) =
      (2 : ℚ) ^ exp * (2 : ℚ) ^ (((a / 2 ^ 23 % 256 : ℕ) : ℤ) - 150) := by
    rw [← zpow_add₀ (two_ne_zero : (2 : ℚ) ≠ 0)]
    congr 1
    omega
  rw [hzp]
  ring

lemma mulPow2_preserves {amin amax : ℕ} {e : ℤ}
    (ha1 : amin < 2 ^ 32) (ha2 : amax < 2 ^ 32)
    (hord : fval amin ≤ fval amax)
    (hzero : ¬(amin = 0 ∧ amax = 2 ^ 31))
    {r : RealIntervalBits} (hr : mul_pow2 ⟨amin, amax⟩ e = some r) :
    fval r.min ≤ fval r.max := by
  unfold mul_pow2 mul_pow2_unchecked at hr
  dsimp only at hr
  split_ifs at hr with hv
  · rw [Bool.and_eq_true] at hv
    injection hr with hr
    subst hr
    dsimp only
    obtain ⟨h1a, h1b⟩ := verify_bounds hv.1
    obtain ⟨h2a, h2b⟩ := verify_bounds hv.2
    rw [ldexp_eq ha1 h1a h1b, ldexp_eq ha2 h2a h2b]
    obtain ⟨E1, hE1⟩ : ∃ E : ℕ, (E : ℤ) = ((amin / 2 ^ 23 % 256 : ℕ) : ℤ) + e :=
      ⟨_, Int.toNat_of_nonneg h1a⟩
    obtain ⟨E2, hE2⟩ : ∃ E : ℕ, (E : ℤ) = ((amax / 2 ^ 23 % 256 : ℕ) : ℤ) + e :=
      ⟨_, Int.toNat_of_nonneg h2a⟩
    rw [show (((amin / 2 ^ 23 % 256 : ℕ) : ℤ) + e).toNat = E1 from by omega,
      show (((amax / 2 ^ 23 % 256 : ℕ) : ℤ) + e).toNat = E2 from by omega]
    have hE1le : E1 ≤ 255 := by omega
    have hE2le : E2 ≤ 255 := by omega
    have hm1 : amin % 2 ^ 23 < 2 ^ 23 := by omega
    have hm2 : amax % 2 ^ 23 < 2 ^ 23 := by omega
    have hR1lt : E1 * 2 ^ 23 + amin % 2 ^ 23 < 2 ^ 31 := by omega
    have hR2lt : E2 * 2 ^ 23 + amax % 2 ^ 23 < 2 ^ 31 := by omega
    have hs1 : amin / 2 ^ 31 = 0 ∨ amin / 2 ^ 31 = 1 := by omega
    have hs2 : amax / 2 ^ 31 = 0 ∨ amax / 2 ^ 31 = 1 := by omega
    rcases hs1 with hs1 | hs1 <;> rcases hs2 with hs2 | hs2
    · -- both bounds have sign bit 0
      have hlt1 : amin < 2 ^ 31 := by omega
      have hle : amin ≤ amax := fval_low_le_inv hlt1 hord
      have key : fval (E1 * 2 ^ 23 + amin % 2 ^ 23) ≤ fval (E2 * 2 ^ 23 + amax % 2 ^ 23) :=
        fval_low_mono hR2lt (by omega)
      have g1 : amin / 2 ^ 31 * 2 ^ 31 + E1 * 2 ^ 23 + amin % 2 ^ 23 =
          E1 * 2 ^ 23 + amin % 2 ^ 23 := by omega
      have g2 : amax / 2 ^ 31 * 2 ^ 31 + E2 * 2 ^ 23 + amax % 2 ^ 23 =
          E2 * 2 ^ 23 + amax % 2 ^ 23 := by omega
      rw [g1, g2]
      exact key
    · -- min has sign bit 0, max has sign bit 1: only the zero pair is possible
      exfalso
      have hlt1 : amin < 2 ^ 31 := by omega
      have hy : amax - 2 ^ 31 < 2 ^ 31 := by omega
      have hhigh : fval amax = -fval (amax - 2 ^ 31) := by
        have hfh := fval_high hy
        rw [show 2 ^ 31 + (amax - 2 ^ 31) = amax from by omega] at hfh
        exact hfh
      have hfy : 0 ≤ fval (amax - 2 ^ 31) := fval_low_nonneg hy
      have hfx : 0 ≤ fval amin := fval_low_nonneg hlt1
      rw [hhigh] at hord
      have hx0 : fval amin = 0 := le_antisymm (by linarith) hfx
      have hy0 : fval (amax - 2 ^ 31) = 0 := le_antisymm (by linarith) hfy
      have := fval_eq_zero hy hy0
      exact hzero ⟨fval_eq_zero hlt1 hx0, by omega⟩
    · -- min has sign bit 1, max has sign bit 0
      have key : fval (2 ^ 31 + (E1 * 2 ^ 23 + amin % 2 ^ 23)) ≤
          fval (E2 * 2 ^ 23 + amax % 2 ^ 23) := by
        calc fval (2 ^ 31 + (E1 * 2 ^ 23 + amin % 2 ^ 23))
            = -fval (E1 * 2 ^ 23 + amin % 2 ^ 23) := fval_high hR1lt
          _ ≤ 0 := neg_nonpos.mpr (fval_low_nonneg hR1lt)
          _ ≤ fval (E2 * 2 ^ 23 + amax % 2 ^ 23) := fval_low_nonneg hR2lt
      have g1 : amin / 2 ^ 31 * 2 ^ 31 + E1 * 2 ^ 23 + amin % 2 ^ 23 =
          2 ^ 31 + (E1 * 2 ^ 23 + amin % 2 ^ 23) := by omega
      have g2 : amax / 2 ^ 31 * 2 ^ 31 + E2 * 2 ^ 23 + amax % 2 ^ 23 =
          E2 * 2 ^ 23 + amax % 2 ^ 23 := by omega
      rw [g1, g2]
      exact key
    · -- both bounds have sign bit 1
      have hy1 : amin - 2 ^ 31 < 2 ^ 31 := by omega
      have hy2 : amax - 2 ^ 31 < 2 ^ 31 := by omega
      have hh1 : fval amin = -fval (amin - 2 ^ 31) := by
        have hfh := fval_high hy1
        rw [show 2 ^ 31 + (amin - 2 ^ 31) = amin from by omega] at hfh
        exact hfh
      have hh2 : fval amax = -fval (amax - 2 ^ 31) := by
        have hfh := fval_high hy2
        rw [show 2 ^ 31 + (amax - 2 ^ 31) = amax from by omega] at hfh
        exact hfh
      rw [hh1, hh2] at hord
      have hyx : amax - 2 ^ 31 ≤ amin - 2 ^ 31 := fval_low_le_inv hy2 (by linarith)
      have key : fval (2 ^ 31 + (E1 * 2 ^ 23 + amin % 2 ^ 23)) ≤
          fval (2 ^ 31 + (E2 * 2 ^ 23 + amax % 2 ^ 23)) := by
        rw [fval_high hR1lt, fval_high hR2lt]
        exact neg_le_neg (fval_low_mono hR1lt (by omega))
      have g1 : amin / 2 ^ 31 * 2 ^ 31 + E1 * 2 ^ 23 + amin % 2 ^ 23 =
          2 ^ 31 + (E1 * 2 ^ 23 + amin % 2 ^ 23) := by omega
      have g2 : amax / 2 ^ 31 * 2 ^ 31 + E2 * 2 ^ 23 + amax % 2 ^ 23 =
          2 ^ 31 + (E2 * 2 ^ 23 + amax % 2 ^ 23) := by omega
      rw [g1, g2]
      exact key

end RealIntervalBits

open RealInterval RealIntervalBits in
/-- C1, counterexample: the invariant claim fails as stated.  `powi` with the
negative exponent `-2` on the valid interval `[1, 2]` yields `[1, 1/4]`, whose
`min` exceeds its `max`.  `mul_pow2` with exponent `1` on the valid bit
interval `[+0.0, -0.0]` (patterns `0` and `2^31`) yields the patterns of
`[2^-126, -2^-126]`, whose bounds are out of IEEE order.  And `mul_pow2` with
exponent `128` on the valid bit interval `[1.5, 1.5]` (pattern `1069547520`)
passes its check (`127 + 128 = 255`) but yields the NaN pattern `0x7FC00000`
(`2143289344`, exponent field 255, nonzero mantissa) for both bounds, on which
the IEEE comparison `min <= max` is false. -/
theorem c1_invariant_counterexample :
    ((⟨1, 2⟩ : RealInterval).valid ∧ ¬(RealInterval.powi ⟨1, 2⟩ (-2)).valid) ∧
      (fleBits 0 (2 ^ 31) = true ∧
        mul_pow2 ⟨0, 2 ^ 31⟩ 1 = some ⟨2 ^ 23, 2 ^ 31 + 2 ^ 23⟩ ∧
        fleBits (2 ^ 23) (2 ^ 31 + 2 ^ 23) = false) ∧
      (fleBits 1069547520 1069547520 = true ∧
        mul_pow2 ⟨1069547520, 1069547520⟩ 128 = some ⟨2143289344, 2143289344⟩ ∧
        isNaNBits 2143289344 ∧ fleBits 2143289344 2143289344 = false) := by
  refine ⟨⟨by decide, ?_⟩, ⟨?_, by decide, ?_⟩, ⟨?_, by decide, by decide, by decide⟩⟩
  · norm_num [RealInterval.powi, RealInterval.valid]
  · norm_num [fleBits, isNaNBits, fval]
  · norm_num [fleBits, isNaNBits, fval]
  · norm_num [fleBits, isNaNBits, fval]

open RealIntervalBits in
/-- C1 (amended): for all valid inputs, the output of `abs`, `min`, `max`,
`minf`, `maxf`, `round`, `powf` (on a non-negative input interval), `powi`
restricted to non-negative exponents, `+`, `-`, `*`, unary `-`, `&` (when it
returns a value) and `|` satisfies `min <= max`; and `mul_pow2`, stated on the
IEEE bit-pattern order `fleBits`, preserves `min <= max` when it returns a
value, except on the input `[+0.0, -0.0]` and except when a bound's exponent
field overflows to 255 with a nonzero mantissa, producing a NaN bound.  The
restriction on `powi` and the two `mul_pow2` exclusions are forced by the
counterexample. -/
theorem c1_invariant_amended
    (A B : RealInterval) (hA : A.valid) (hB : B.valid)
    (s : ℚ) (e : ℤ) (he : 0 ≤ e)
    (p : ℚ → ℚ → ℚ) (v : ℚ)
    (hpm : 0 < v → ∀ x y : ℚ, 0 ≤ x → x ≤ y → p x v ≤ p y v)
    (hpa : v ≤ 0 → ∀ x y : ℚ, 0 ≤ x → x ≤ y → p y v ≤ p x v)
    (amin amax : ℕ) (e2 : ℤ)
    (ha1 : amin < 2 ^ 32) (ha2 : amax < 2 ^ 32)
    (hord : fleBits amin amax = true) (hzero : ¬(amin = 0 ∧ amax = 2 ^ 31))
    (r : RealIntervalBits) (hr : mul_pow2 ⟨amin, amax⟩ e2 = some r)
    (hnan1 : ¬isNaNBits r.min) (hnan2 : ¬isNaNBits r.max) :
    A.abs.valid ∧ (A.minI B).valid ∧ (A.maxI B).valid ∧ (A.minf s).valid ∧
      (A.maxf s).valid ∧ A.round.valid ∧ (0 ≤ A.min → (A.powfM p v).valid) ∧
      (A.powi e).valid ∧ (A.add B).valid ∧ (A.sub B).valid ∧ (A.mul B).valid ∧
      A.neg.valid ∧ (A.addF s).valid ∧ (A.subF s).valid ∧ (A.mulF s).valid ∧
      (∀ C, A.inter B = some C → C.valid) ∧ (A.union B).valid ∧
      fleBits r.min r.max = true := by
  have hA' : A.min ≤ A.max := hA
  have hB' : B.min ≤ B.max := hB
  obtain ⟨-, -, hford⟩ := (fleBits_eq_true amin amax).mp hord
  refine ⟨RealInterval.abs_valid A, ?_, ?_, ?_, ?_, ?_,
    fun hm => RealInterval.powfM_valid hA hm hpm hpa,
    RealInterval.powi_valid hA he, ?_, ?_, RealInterval.mul_valid hB, ?_, ?_, ?_, ?_, ?_,
    RealInterval.union_valid hA,
    (fleBits_eq_true r.min r.max).mpr
      ⟨hnan1, hnan2, mulPow2_preserves ha1 ha2 hford hzero hr⟩⟩
  · exact min_le_min hA' hB'
  · exact max_le_max hA' hB'
  · exact min_le_min hA' (le_refl s)
  · exact max_le_max hA' (le_refl s)
  · exact RealInterval.roundQ_mono hA'
  · show A.min + B.min ≤ A.max + B.max
    linarith
  · show A.min - B.max ≤ A.max - B.min
    linarith
  · show -A.max ≤ -A.min
    linarith
  · show A.min + s ≤ A.max + s
    linarith
  · show A.min - s ≤ A.max - s
    linarith
  · show (A.mulF s).valid
    unfold RealInterval.valid RealInterval.mulF
    split_ifs with hs
    · exact mul_le_mul_of_nonneg_left hA' hs
    · exact mul_le_mul_of_nonpos_left hA' (le_of_not_le hs)
  · intro C hC
    unfold RealInterval.inter at hC
    split_ifs at hC with h
    injection hC with hC
    rw [← hC]
    exact h

open RealIntervalBits in
/-- Witness for C1: the amended theorem applied at the intervals `[0, 1]`,
scalar `0`, exponent `2`, the identity power function with exponent `1`, and
the bit interval of `[1.0, 1.0]` scaled by `2^1` to the bits of `2.0`. -/
theorem c1_invariant_witness :
    (RealInterval.powi ⟨0, 1⟩ 2).valid ∧ fleBits 1073741824 1073741824 = true := by
  have h := c1_invariant_amended ⟨0, 1⟩ ⟨0, 1⟩ (by decide) (by decide) 0 2 (by decide)
    (fun x _ => x) 1 (fun _ x y _ hxy => hxy) (fun hc => absurd hc (by norm_num))
    1065353216 1065353216 1 (by norm_num) (by norm_num)
    (by norm_num [fleBits, isNaNBits, fval]) (by decide)
    ⟨1073741824, 1073741824⟩ (by decide) (by decide) (by decide)
  exact ⟨h.2.2.2.2.2.2.2.1, h.2.2.2.2.2.2.2.2.2.2.2.2.2.2.2.2.2⟩

/-- C2, counterexample: powi soundness fails for negative exponents.  The point
`2` lies in the valid interval `[1, 2]`, but `powi(-1)` of that interval is
`[1, 1/2]`, which does not contain `2^(-1) = 1/2`. -/
theorem c2_soundness_counterexample :
    (⟨1, 2⟩ : RealInterval).valid ∧ (⟨1, 2⟩ : RealInterval).contains 2 ∧
      ¬(RealInterval.powi ⟨1, 2⟩ (-1)).contains ((2 : ℚ) ^ (-1 : ℤ)) := by
  refine ⟨by decide, by decide, ?_⟩
  norm_num [RealInterval.powi, RealInterval.contains]

/-- C2 (amended): for valid intervals `A`, `B` and points `a ∈ A`, `b ∈ B`, the
interval results of `+`, `-`, `*` and `abs` contain the pointwise results, and
`powi` contains `a ^ e` for every non-negative integer exponent `e`.  The
restriction of the exponent to `e >= 0` is forced by the counterexample. -/
theorem c2_soundness_amended (A B : RealInterval) (hA : A.valid) (hB : B.valid)
    (a b : ℚ) (ha : A.contains a) (hb : B.contains b) (e : ℤ) (he : 0 ≤ e) :
    (A.add B).contains (a + b) ∧ (A.sub B).contains (a - b) ∧
      (A.mul B).contains (a * b) ∧ A.abs.contains |a| ∧
      (A.powi e).contains (a ^ e) := by
  refine ⟨?_, ?_, RealInterval.mul_sound ha hb, RealInterval.abs_sound ha,
    RealInterval.powi_sound ha he⟩
  · have h1 := ha.1
    have h2 := ha.2
    have h3 := hb.1
    have h4 := hb.2
    exact ⟨by show A.min + B.min ≤ a + b; linarith, by show a + b ≤ A.max + B.max; linarith⟩
  · have h1 := ha.1
    have h2 := ha.2
    have h3 := hb.1
    have h4 := hb.2
    exact ⟨by show A.min - B.max ≤ a - b; linarith, by show a - b ≤ A.max - B.min; linarith⟩

/-- Witness for C2: the amended theorem applied at `A = [-2, 3]`, `B = [-1, 2]`,
`a = 2`, `b = 1`, `e = 0`. -/
theorem c2_soundness_witness :
    (RealInterval.mul ⟨-2, 3⟩ ⟨-1, 2⟩).contains (2 * 1) ∧
      (RealInterval.powi ⟨-2, 3⟩ 0).contains ((2 : ℚ) ^ (0 : ℤ)) := by
  have h := c2_soundness_amended ⟨-2, 3⟩ ⟨-1, 2⟩ (by decide) (by decide) 2 1
    (by decide) (by decide) 0 (by decide)
  exact ⟨h.2.2.1, h.2.2.2.2⟩

/-- C3: on a valid interval, `powi` with an even exponent returns
`[0, max(min^e, max^e)]` when the interval straddles zero, `[min^e, max^e]`
when it is entirely non-negative and `[max^e, min^e]` when it is entirely
negative; with an odd exponent (negative ones included) it returns
`[min^e, max^e]` unconditionally, with no bound swap. -/
theorem c3_powi_cases (i : RealInterval) (e : ℤ) (h : i.valid) :
    (Even e → i.min < 0 → 0 ≤ i.max →
        i.powi e = ⟨0, Max.max (i.min ^ e) (i.max ^ e)⟩) ∧
      (Even e → 0 ≤ i.min → i.powi e = ⟨i.min ^ e, i.max ^ e⟩) ∧
      (Even e → i.max < 0 → i.powi e = ⟨i.max ^ e, i.min ^ e⟩) ∧
      (Odd e → i.powi e = ⟨i.min ^ e, i.max ^ e⟩) := by
  have h' : i.min ≤ i.max := h
  refine ⟨fun he h1 h2 => ?_, fun he h1 => ?_, fun he h1 => ?_, fun he => ?_⟩
  · rw [RealInterval.powi, if_pos (Int.even_iff.mp he), if_pos ⟨h1, h2⟩]
  · rw [RealInterval.powi, if_pos (Int.even_iff.mp he),
      if_neg (fun hc => absurd h1 (not_le.mpr hc.1)), if_pos h1]
  · rw [RealInterval.powi, if_pos (Int.even_iff.mp he),
      if_neg (fun hc => absurd hc.2 (not_le.mpr h1)),
      if_neg (not_le.mpr (lt_of_le_of_lt h' h1))]
  · rw [RealInterval.powi, if_neg (by have := Int.odd_iff.mp he; omega)]

/-- Witness for C3: the even straddling case at `[-1, 2]` with exponent `2`. -/
theorem c3_powi_cases_witness :
    RealInterval.powi ⟨-1, 2⟩ 2 =
      ⟨0, Max.max ((-1 : ℚ) ^ (2 : ℤ)) ((2 : ℚ) ^ (2 : ℤ))⟩ :=
  (c3_powi_cases ⟨-1, 2⟩ 2 (by decide)).1 (by decide) (by decide) (by decide)

open RealIntervalBits in
/-- C4: `mul_pow2` returns `none` exactly when the check described by the
specification (on the exponent field, bits 23-30 of the bound's 32-bit
representation) fails for at least one of the two bounds, and otherwise returns
the interval with both bounds scaled by `ldexp`. -/
theorem c4_mul_pow2_check (i : RealIntervalBits) (e : ℤ) :
    (mul_pow2 i e = none ↔ ¬(ldexpCheck i.min e ∧ ldexpCheck i.max e)) ∧
      (ldexpCheck i.min e → ldexpCheck i.max e →
        mul_pow2 i e = some ⟨ldexp i.min e, ldexp i.max e⟩) := by
  constructor
  · unfold mul_pow2
    split_ifs with hv
    · rw [Bool.and_eq_true, verify_iff, verify_iff] at hv
      simp [hv.1, hv.2]
    · rw [Bool.and_eq_true, verify_iff, verify_iff] at hv
      simp [hv]
  · intro h1 h2
    have hv : (verify_ldexp i.min e && verify_ldexp i.max e) = true := by
      rw [Bool.and_eq_true, verify_iff, verify_iff]
      exact ⟨h1, h2⟩
    unfold mul_pow2 mul_pow2_unchecked
    rw [if_pos hv]

open RealIntervalBits in
/-- Witness for C4: both checks pass on the zero interval with exponent `0`,
and the result is the unchanged interval. -/
theorem c4_mul_pow2_check_witness : mul_pow2 ⟨0, 0⟩ 0 = some ⟨0, 0⟩ := by
  have h := (c4_mul_pow2_check ⟨0, 0⟩ 0).2 (by decide) (by decide)
  rw [show ldexp 0 0 = 0 from rfl] at h
  exact h

open RealIntervalBits in
/-- C5, counterexample: on the interval whose bounds are both `+0.0` (bit
pattern `0`), `mul_pow2 1` passes its check but returns the bits of
`2^(-126)`, not the zero interval that generic multiplication by `2^1`
produces. -/
theorem c5_mul_pow2_counterexample :
    Option.map toVal (mul_pow2 ⟨0, 0⟩ 1) ≠
      some (RealInterval.mulF (toVal ⟨0, 0⟩) ((2 : ℚ) ^ (1 : ℤ))) := by
  norm_num [mul_pow2, mul_pow2_unchecked, verify_ldexp, expField, ldexp, toVal,
    fval, RealInterval.mulF, show Int.toNat 8388608 = 8388608 from rfl]

open RealIntervalBits in
/-- C5 (amended): for bounds that are normal floats and stay normal after the
exponent shift (exponent field within `[1, 254]` before and after adding the
exponent), `mul_pow2` returns a value and the represented interval equals the
generic scalar multiplication of the represented interval by `2 ^ n`.  The
restriction to normal bounds is forced by the counterexample at zero. -/
theorem c5_mul_pow2_exact_amended (i : RealIntervalBits) (e : ℤ)
    (hmin : normalBound i.min e) (hmax : normalBound i.max e) :
    Option.map toVal (mul_pow2 i e) =
      some (RealInterval.mulF (toVal i) ((2 : ℚ) ^ e)) := by
  obtain ⟨ha1, hb1, hc1, hd1, he1⟩ := hmin
  obtain ⟨ha2, hb2, hc2, hd2, he2⟩ := hmax
  have hv1 : verify_ldexp i.min e = true := by
    rw [verify_iff]
    exact ⟨fun h => ⟨by omega, by omega⟩, fun h => by omega⟩
  have hv2 : verify_ldexp i.max e = true := by
    rw [verify_iff]
    exact ⟨fun h => ⟨by omega, by omega⟩, fun h => by omega⟩
  unfold mul_pow2 mul_pow2_unchecked
  rw [if_pos (by rw [Bool.and_eq_true]; exact ⟨hv1, hv2⟩)]
  unfold toVal RealInterval.mulF
  rw [if_pos (le_of_lt (zpow_pos (by norm_num : (0 : ℚ) < 2) e))]
  simp only [Option.map_some']
  rw [fval_ldexp ha1 hb1 hd1 (by omega), fval_ldexp ha2 hb2 hd2 (by omega)]

open RealIntervalBits in
/-- Witness for C5: the bit interval of `[1.0, 1.0]` scaled by `2^1` equals the
generic multiplication of `[1.0, 1.0]` by `2`. -/
theorem c5_mul_pow2_exact_witness :
    Option.map toVal (mul_pow2 ⟨1065353216, 1065353216⟩ 1) =
      some (RealInterval.mulF (toVal ⟨1065353216, 1065353216⟩) ((2 : ℚ) ^ (1 : ℤ))) :=
  c5_mul_pow2_exact_amended ⟨1065353216, 1065353216⟩ 1 (by decide) (by decide)

/-- C6: interval-by-interval multiplication is exactly the union of the two
scalar multiplications of the right interval by the left interval's bounds,
each following the sign-based bound-ordering rule the specification states. -/
theorem c6_mul_matches_spec (a b : RealInterval) : a.mul b = a.mulSpec b := rfl

/-- C7: the constructor `min_max` fails (modelled as `none`) when `min > max`,
and otherwise returns the interval whose fields are exactly the arguments. -/
theorem c7_min_max_constructor (mn mx : ℚ) :
    (mx < mn → RealInterval.min_max mn mx = none) ∧
      (mn ≤ mx → RealInterval.min_max mn mx = some ⟨mn, mx⟩) := by
  constructor
  · intro h
    unfold RealInterval.min_max
    rw [if_neg (not_le.mpr h)]
  · intro h
    unfold RealInterval.min_max
    rw [if_pos h]

/-- Witness for C7: construction fails on `(1, 0)` and succeeds on `(0, 1)`. -/
theorem c7_min_max_constructor_witness :
    RealInterval.min_max 1 0 = none ∧ RealInterval.min_max 0 1 = some ⟨0, 1⟩ :=
  ⟨(c7_min_max_constructor 1 0).1 (by norm_num),
    (c7_min_max_constructor 0 1).2 (by norm_num)⟩

/-- C8: subtraction agrees with addition of the negation, `A - B = A + (-B)`,
with field-wise equality. -/
theorem c8_sub_neg_add (a b : RealInterval) : a.sub b = a.add b.neg := by
  unfold RealInterval.sub RealInterval.add RealInterval.neg
  rw [sub_eq_add_neg, sub_eq_add_neg]

/-- C9: on valid intervals, `A & A = Some(A)`, `A | A = A`, intersection and
union are commutative, and an interval returned by `&` contains every point
contained in both operands. -/
theorem c9_set_laws (a b : RealInterval) (ha : a.valid) (hb : b.valid) :
    a.inter a = some a ∧ a.union a = a ∧ a.inter b = b.inter a ∧
      a.union b = b.union a ∧
      ∀ c x, a.inter b = some c → a.contains x → b.contains x → c.contains x := by
  have ha' : a.min ≤ a.max := ha
  refine ⟨?_, ?_, ?_, ?_, ?_⟩
  · unfold RealInterval.inter
    rw [max_self, min_self, if_pos ha']
  · unfold RealInterval.union
    rw [min_self, max_self]
  · unfold RealInterval.inter
    rw [max_comm a.min b.min, min_comm a.max b.max]
  · unfold RealInterval.union
    rw [min_comm a.min b.min, max_comm a.max b.max]
  · intro c x hc hax hbx
    unfold RealInterval.inter at hc
    split_ifs at hc with h
    injection hc with hc
    rw [← hc]
    exact ⟨max_le hax.1 hbx.1, le_min hax.2 hbx.2⟩

/-- Witness for C9: self-intersection of `[0, 1]` returns `[0, 1]`. -/
theorem c9_set_laws_witness :
    RealInterval.inter ⟨0, 1⟩ ⟨0, 1⟩ = some ⟨0, 1⟩ :=
  (c9_set_laws ⟨0, 1⟩ ⟨0, 1⟩ (by decide) (by decide)).1

/-- C10: `contains` is exactly the conjunction `min <= v && v <= max` under the
IEEE comparison; it returns `false` on a NaN argument, and returns `false` on
every argument when either bound is NaN. -/
theorem c10_contains_nan (i : FloatInterval) (v : FloatVal) :
    containsF i FloatVal.nan = false ∧
      containsF i v = (fle i.min v && fle v i.max) ∧
      (i.min = FloatVal.nan ∨ i.max = FloatVal.nan → containsF i v = false) := by
  refine ⟨?_, rfl, ?_⟩
  · cases hm : i.min <;> simp [containsF, fle, hm]
  · rintro (h | h)
    · unfold containsF
      rw [h]
      cases v <;> simp [fle]
    · unfold containsF
      rw [h]
      cases v <;> simp [fle]

/-- Witness for C10: an interval whose lower bound is NaN contains nothing. -/
theorem c10_contains_nan_witness :
    containsF ⟨FloatVal.nan, FloatVal.num 0⟩ (FloatVal.num 1) = false :=
  (c10_contains_nan ⟨FloatVal.nan, FloatVal.num 0⟩ (FloatVal.num 1)).2.2 (Or.inl rfl)
